import Mathlib

/-!
Shallow embedding of the `hw5` cycle-detection / time-memory-tradeoff core
(`floyd.py`, `nivasch.py`, `hellman_tables.py`) and verification of its
specification.  Machine integers are modelled as `Nat` (Python integers are
unbounded).  Unbounded `while` loops are modelled with an explicit `fuel`
argument: `none` (resp. an explicit out-of-fuel error) means the loop has not
finished within `fuel` iterations, so any terminating run of the Python code
corresponds to a sufficiently large fuel value.
-/

namespace CsvrHw

/-! ### floyd.py -/

/-- The tortoise/hare race loop of `find_collision`
(`while p1 != p2: count += 1; p1 = f.calc(p1); p2 = f.calc(f.calc(p2))`).
Returns the final `count` together with the meeting point. -/
def race (f : Nat → Nat) : Nat → Nat → Nat → Nat → Option (Nat × Nat)
  | 0, _, _, _ => none
  | fuel + 1, p1, p2, count =>
    if p1 = p2 then some (count, p1)
    else race f fuel (f p1) (f (f p2)) (count + 1)

/-- The `for _ in range(n)` verification walk of `find_collision`: advance
`p1 = f.calc(p1)` up to `n` times, returning `true` as soon as the walk
revisits `start` (the degenerate "started on the cycle" case). -/
def checkStart (f : Nat → Nat) : Nat → Nat → Nat → Bool
  | 0, _, _ => false
  | n + 1, p1, start =>
    if f p1 = start then true else checkStart f n (f p1) start

/-- The final collision loop of `find_collision`
(`while f.calc(p1) != f.calc(p2): p1 = f.calc(p1); p2 = f.calc(p2)`). -/
def collisionLoop (f : Nat → Nat) : Nat → Nat → Nat → Option (Nat × Nat)
  | 0, _, _ => none
  | fuel + 1, p1, p2 =>
    if f p1 = f p2 then some (p1, p2)
    else collisionLoop f fuel (f p1) (f p2)

/-- `find_collision(f, start)` from `floyd.py`.  `f` is the self-map
(`f.calc` in the source), `fuel` bounds the two unbounded `while` loops. -/
def find_collision (f : Nat → Nat) (start : Nat) (fuel : Nat) : Option (Nat × Nat) :=
  if f start = start then some (start, start)
  else
    match race f fuel (f start) (f (f start)) 0 with
    | none => none
    | some (count, meet) =>
      if checkStart f (count * 2) meet start then some (start, start)
      else collisionLoop f fuel start meet

/-! ### nivasch.py

The `k` stacks are Python lists used as stacks (append/pop/`[-1]` at the end).
Each stack is modelled as a Lean `List Nat` whose HEAD is the TOP of the
Python stack, so Python `append` is `cons`, Python `pop` removes the head and
Python `stack[-1]` is the head.  Python's `v % 0` raises `ZeroDivisionError`;
the embedding makes that an explicit `divByZero` error, and a (provably
unreachable for `k ≥ 1`) out-of-bounds stack access an `indexOut` error. -/

inductive NivaschErr where
  | divByZero
  | indexOut
  | outOfFuel
deriving DecidableEq

deriving instance DecidableEq for Except

/-- Body of `find_cycle`'s stack update: if the stack is empty push `next`,
otherwise pop every entry from the top that is `> next`
(`while stks[next % k][-1] > next: stks[next % k].pop()`) and then push
`next`.  Popping from the top while `top > next` is `dropWhile (next < ·)` on
the head-is-top representation. -/
def updateStack (next : Nat) (s : List Nat) : List Nat :=
  if s.length = 0 then next :: s
  else next :: s.dropWhile (fun t => next < t)

/-- The `while True` loop of `find_cycle`: advance `next = f.calc(next)`,
return `next` as soon as it is already present in its stack
(`if next in stks[next % k]`), otherwise update that stack and continue. -/
def nivaschLoop (f : Nat → Nat) (k : Nat) :
    Nat → List (List Nat) → Nat → Except NivaschErr Nat
  | 0, _, _ => .error .outOfFuel
  | fuel + 1, stks, curr =>
    let next := f curr
    match stks[next % k]? with
    | none => .error .indexOut
    | some s =>
      if next ∈ s then .ok next
      else nivaschLoop f k fuel (stks.set (next % k) (updateStack next s)) next

/-- `find_cycle(f, k, start)` from `nivasch.py`: `k` empty stacks, push
`start` onto `stks[start % k]`, then run the loop. -/
def find_cycle (f : Nat → Nat) (k start fuel : Nat) : Except NivaschErr Nat :=
  if k = 0 then .error .divByZero
  else
    match (List.replicate k ([] : List Nat))[start % k]? with
    | none => .error .indexOut
    | some s =>
      nivaschLoop f k fuel
        ((List.replicate k ([] : List Nat)).set (start % k) (start :: s)) start

/-- The successive stack states visited by `find_cycle`'s loop, mirroring
`nivaschLoop` branch for branch (the state before each iteration, ending with
the state at return / fuel exhaustion). -/
def nivaschTrace (f : Nat → Nat) (k : Nat) :
    Nat → List (List Nat) → Nat → List (List (List Nat))
  | 0, stks, _ => [stks]
  | fuel + 1, stks, curr =>
    let next := f curr
    match stks[next % k]? with
    | none => [stks]
    | some s =>
      if next ∈ s then [stks]
      else stks :: nivaschTrace f k fuel (stks.set (next % k) (updateStack next s)) next

/-- The stack states of a `find_cycle(f, k, start)` execution (initial state
included). -/
def find_cycle_states (f : Nat → Nat) (k start fuel : Nat) : List (List (List Nat)) :=
  if k = 0 then []
  else
    match (List.replicate k ([] : List Nat))[start % k]? with
    | none => []
    | some s =>
      nivaschTrace f k fuel
        ((List.replicate k ([] : List Nat)).set (start % k) (start :: s)) start

/-- The stack-set invariant actually maintained by the code: `k` stacks, each
strictly increasing in value from bottom to top (head of the Lean list is the
top, so the list decreases head-to-tail), and stack `j` only holds values
`e` with `e % k = j`. -/
def StacksInv (k : Nat) (stks : List (List Nat)) : Prop :=
  stks.length = k ∧
    ∀ j, j < stks.length →
      List.Chain' (fun a b => b < a) (stks.getD j []) ∧
        ∀ e ∈ stks.getD j [], e % k = j

/-- The stack-set shape asserted by the spec: each stack strictly decreasing
in value from bottom to top (head of the Lean list is the top, so the list
increases head-to-tail), partitioned by `value mod k`. -/
def StacksDecreasing (k : Nat) (stks : List (List Nat)) : Prop :=
  stks.length = k ∧
    ∀ j, j < stks.length →
      List.Chain' (fun a b => a < b) (stks.getD j []) ∧
        ∀ e ∈ stks.getD j [], e % k = j

instance (k : Nat) (stks : List (List Nat)) : Decidable (StacksInv k stks) :=
  inferInstanceAs (Decidable (stks.length = k ∧
    ∀ j, j < stks.length →
      List.Chain' (fun a b => b < a) (stks.getD j []) ∧
        ∀ e ∈ stks.getD j [], e % k = j))

instance (k : Nat) (stks : List (List Nat)) : Decidable (StacksDecreasing k stks) :=
  inferInstanceAs (Decidable (stks.length = k ∧
    ∀ j, j < stks.length →
      List.Chain' (fun a b => a < b) (stks.getD j []) ∧
        ∀ e ∈ stks.getD j [], e % k = j))

/-! ### hellman_tables.py

The external PRF oracle (excluded collaborator) is a record of its evaluation
function `calc` and its published sizes `domain` and `rang` (names as in the
source; `domain_bytes` is only used to draw random start points, which the
embedding takes as explicit parameters).  A Python `defaultdict(list)` table
is an insertion-ordered association list `List (Nat × List Nat)`; a lookup of
a missing key INSERTS that key with the empty list, exactly as
`defaultdict.__getitem__` does, which is why table reads thread the table
state. -/

structure Oracle where
  «calc» : Nat → Nat
  domain : Nat
  rang : Nat

/-- `ModifiedPRF` from `hellman_tables.py`: it only stores the oracle. -/
structure ModifiedPRF where
  f : Oracle

/-- `ModifiedPRF.__init__(self, f)`: stores `f`, performs no validation of the
published sizes, and cannot fail. -/
def ModifiedPRF.init (f : Oracle) : ModifiedPRF := ⟨f⟩

/-- `ModifiedPRF.calc(self, x)`: the three domain/range regimes. -/
def ModifiedPRF.«calc» (F : ModifiedPRF) (x : Nat) : Nat :=
  let domain := F.f.domain
  let rang := F.f.rang
  if domain < rang then F.f.«calc» (x % domain)
  else if domain > rang then F.f.«calc» (x + ((x + 1) % domain) * rang)
  else F.f.«calc» x

/-- `ModifiedPRF.recover_x(self, x)`: the matching inverse-representation
transform for each of the three regimes. -/
def ModifiedPRF.recover_x (F : ModifiedPRF) (x : Nat) : Nat :=
  let domain := F.f.domain
  let rang := F.f.rang
  if domain < rang then x % domain
  else if domain > rang then x + ((x + 1) % domain) * rang
  else x

/-- A Hellman table: endpoint key to ordered list of start points, in
insertion order (Python `defaultdict(list)`). -/
abbrev Table := List (Nat × List Nat)

/-- `defaultdict` read `table[key]`: returns the stored list, inserting
`key ↦ []` first when the key is missing (the Python read mutates the dict). -/
def dGet (T : Table) (key : Nat) : List Nat × Table :=
  match T.lookup key with
  | some v => (v, T)
  | none => ([], T ++ [(key, [])])

/-- Append `s` to the entry of `key` (present keys keep their position, a
missing key is appended at the end, as Python dict insertion order does):
`table[curr].append(start)`. -/
def dUpdate : Table → Nat → Nat → Table
  | [], _, _ => []
  | (k, v) :: rest, key, s =>
    if k = key then (k, v ++ [s]) :: rest else (k, v) :: dUpdate rest key s

/-- `table[curr].append(start)` on a `defaultdict(list)`. -/
def dAppend (T : Table) (key s : Nat) : Table :=
  match T.lookup key with
  | some _ => dUpdate T key s
  | none => T ++ [(key, [s])]

/-- The preprocessing chain walk: `for _ in range(t): next = f_tag.calc((curr + i)
% f_tag.f.domain); curr = next`. -/
def buildChain (F : ModifiedPRF) (i : Nat) : Nat → Nat → Nat
  | 0, curr => curr
  | t + 1, curr => buildChain F i t (F.«calc» ((curr + i) % F.f.domain))

/-- One table of `hellman_preprocess`: walk each start point for `t` steps and
record `endpoint → start`. -/
def buildTable (F : ModifiedPRF) (i t : Nat) : List Nat → Table → Table
  | [], T => T
  | s :: rest, T => buildTable F i t rest (dAppend T (buildChain F i t s) s)

/-- `hellman_preprocess(m, t, f_tag)`: one table per perturbation index
`i = 0..t-1`.  The random start points (`urandom` in the source) are passed
explicitly: `starts` holds the list of start points of each table (`m` of
them per table in the source). -/
def hellman_preprocess (starts : List (List Nat)) (t : Nat) (F : ModifiedPRF) :
    List Table :=
  (List.range t).map (fun i => buildTable F i t (starts.getD i []) [])

/-- The chain replay of `hellman_online`: `for _ in range(t): if
f_tag.calc((a + i) % f_tag.f.domain) == y: return (a+i) % f_tag.f.domain;
a = f_tag.calc((a + i) % f_tag.f.domain)`. -/
def chainSearch (F : ModifiedPRF) (i y : Nat) : Nat → Nat → Option Nat
  | 0, _ => none
  | t + 1, a =>
    if F.«calc» ((a + i) % F.f.domain) = y then some ((a + i) % F.f.domain)
    else chainSearch F i y t (F.«calc» ((a + i) % F.f.domain))

/-- `for a in tables[i][curr]: ...`: replay each recorded start, first hit
wins. -/
def startsSearch (F : ModifiedPRF) (i t y : Nat) : List Nat → Option Nat
  | [] => none
  | a :: rest =>
    match chainSearch F i y t a with
    | some x => some x
    | none => startsSearch F i t y rest

/-- The inner `for _ in range(t)` walk of `hellman_online` over one table:
read `tables[i][curr]` (a mutating `defaultdict` read), replay the recorded
starts on a hit, else step `curr` forward with the perturbed step. -/
def tableWalk (F : ModifiedPRF) (i t y : Nat) : Nat → Nat → Table → Option Nat × Table
  | 0, _, T => (none, T)
  | steps + 1, curr, T =>
    let (lst, T') := dGet T curr
    match (if lst.length > 0 then startsSearch F i t y lst else none) with
    | some x => (some x, T')
    | none => tableWalk F i t y steps (F.«calc» ((curr + i) % F.f.domain)) T'

/-- The outer `for i in range(len(tables))` loop of `hellman_online`,
threading the (mutated-by-reads) tables and stopping at the first success. -/
def onlineGo (F : ModifiedPRF) (t y : Nat) : Nat → List Table → Option Nat × List Table
  | _, [] => (none, [])
  | i, T :: rest =>
    match tableWalk F i t y t y T with
    | (some x, T') => (some x, T' :: rest)
    | (none, T') =>
      let (r, rest') := onlineGo F t y (i + 1) rest
      (r, T' :: rest')

/-- `hellman_online(tables, t, y, f_tag)`: the result (`some x` on success,
`none` for "not found") together with the tables as they stand after the
call. -/
def hellman_online (tables : List Table) (t y : Nat) (F : ModifiedPRF) :
    Option Nat × List Table :=
  onlineGo F t y 0 tables

/-- Table preservation, entrywise: every entry present before is unchanged,
and any entry present only afterwards carries the empty start list. -/
def TablePreserved (T T' : Table) : Prop :=
  (∀ key v, T.lookup key = some v → T'.lookup key = some v) ∧
    (∀ key v, T'.lookup key = some v → T.lookup key = some v ∨ v = [])

/-- Once the two pointers of the final loop are distinct they stay distinct:
after a step both pointers are images under `f` of values whose images were
tested unequal by the loop guard. -/
theorem collisionLoop_ne (f : Nat → Nat) :
    ∀ fuel p1 p2 a b, p1 ≠ p2 → collisionLoop f fuel p1 p2 = some (a, b) →
      f a = f b ∧ a ≠ b := by
  intro fuel
  induction fuel with
  | zero => intro p1 p2 a b _ h; simp [collisionLoop] at h
  | succ fuel ih =>
    intro p1 p2 a b hne h
    by_cases hg : f p1 = f p2
    · simp [collisionLoop, hg] at h
      exact ⟨h.1 ▸ h.2 ▸ hg, h.1 ▸ h.2 ▸ hne⟩
    · simp [collisionLoop, hg] at h
      exact ih (f p1) (f p2) a b hg h

/-- Any pair returned by the final collision loop satisfies `f a = f b`, and an
equal pair can only be the initial state (the loop exiting immediately). -/
theorem collisionLoop_sound (f : Nat → Nat) (fuel p1 p2 a b : Nat)
    (h : collisionLoop f fuel p1 p2 = some (a, b)) :
    f a = f b ∧ (a = b → a = p1 ∧ b = p2) := by
  cases fuel with
  | zero => simp [collisionLoop] at h
  | succ fuel =>
    by_cases hg : f p1 = f p2
    · simp [collisionLoop, hg] at h
      exact ⟨h.1 ▸ h.2 ▸ hg, fun _ => ⟨h.1.symm, h.2.symm⟩⟩
    · simp [collisionLoop, hg] at h
      have := collisionLoop_ne f fuel (f p1) (f p2) a b hg h
      exact ⟨this.1, fun hab => absurd hab this.2⟩

/-- Claim C1: whenever `find_collision(f, start)` returns a pair `(x0, x1)`
with `x0 ≠ x1` then `f(x0) = f(x1)` (every returned pair satisfies
`f x0 = f x1`, trivially so for an equal pair), and the only equal pair it can
return is the degenerate `(start, start)`. -/
theorem find_collision_sound (f : Nat → Nat) (start fuel x0 x1 : Nat)
    (h : find_collision f start fuel = some (x0, x1)) :
    f x0 = f x1 ∧ (x0 = x1 → x0 = start ∧ x1 = start) := by
  unfold find_collision at h
  by_cases hfix : f start = start
  · simp [hfix] at h
    exact ⟨h.1 ▸ h.2 ▸ rfl, fun _ => ⟨h.1.symm, h.2.symm⟩⟩
  · simp only [hfix, if_false] at h
    cases hr : race f fuel (f start) (f (f start)) 0 with
    | none => rw [hr] at h; simp at h
    | some cm =>
      obtain ⟨count, meet⟩ := cm
      rw [hr] at h
      by_cases hc : checkStart f (count * 2) meet start
      · simp [hc] at h
        exact ⟨h.1 ▸ h.2 ▸ rfl, fun _ => ⟨h.1.symm, h.2.symm⟩⟩
      · simp [hc] at h
        have := collisionLoop_sound f fuel start meet x0 x1 h
        exact ⟨this.1, fun hab => ⟨(this.2 hab).1, hab ▸ (this.2 hab).1⟩⟩

/-- Witness for C1 on the concrete self-map `x ↦ (x² + 1) mod 7` started at 0,
where `find_collision` returns the genuine collision `(2, 5)`. -/
theorem find_collision_sound_witness :
    (fun x => (x * x + 1) % 7) 2 = (fun x => (x * x + 1) % 7) 5 ∧
      (2 = 5 → 2 = 0 ∧ 5 = 0) :=
  find_collision_sound (fun x => (x * x + 1) % 7) 0 10 2 5 (by decide)

/-- Every element stored in any stack during the loop is an earlier iterate of
`start`; hence a membership hit witnesses two distinct iteration indices with
the same value. -/
theorem nivaschLoop_ok_on_cycle (f : Nat → Nat) (k start : Nat) (x : Nat) :
    ∀ fuel (stks : List (List Nat)) (c : Nat),
      (∀ e, (∃ s ∈ stks, e ∈ s) → ∃ i, i ≤ c ∧ f^[i] start = e) →
      nivaschLoop f k fuel stks (f^[c] start) = .ok x →
      ∃ i j, i < j ∧ f^[i] start = x ∧ f^[j] start = x := by
  intro fuel
  induction fuel with
  | zero => intro stks c _ h; simp [nivaschLoop] at h
  | succ fuel ih =>
    intro stks c hstore h
    rw [nivaschLoop] at h
    have hnext : f (f^[c] start) = f^[c + 1] start :=
      (Function.iterate_succ_apply' f c start).symm
    rw [hnext] at h
    cases hget : stks[(f^[c + 1] start) % k]? with
    | none => rw [hget] at h; simp at h
    | some s =>
      rw [hget] at h
      by_cases hmem : f^[c + 1] start ∈ s
      · simp only [hmem, if_true] at h
        have hx : x = f^[c + 1] start := by
          cases h; rfl
        obtain ⟨i, hic, hi⟩ := hstore (f^[c + 1] start) ⟨s, List.getElem?_mem hget, hmem⟩
        exact ⟨i, c + 1, Nat.lt_succ_of_le hic, hx ▸ hi, hx ▸ rfl⟩
      · simp only [hmem, if_false] at h
        refine ih _ (c + 1) ?_ h
        intro e ⟨s', hs', hes'⟩
        rcases List.mem_or_eq_of_mem_set hs' with hs'old | hs'new
        · obtain ⟨i, hic, hi⟩ := hstore e ⟨s', hs'old, hes'⟩
          exact ⟨i, Nat.le_succ_of_le hic, hi⟩
        · subst hs'new
          unfold updateStack at hes'
          have : e = f^[c + 1] start ∨ e ∈ s := by
            by_cases hlen : s.length = 0
            · simp [hlen] at hes'
              rcases hes' with he | he
              · exact Or.inl he
              · exact Or.inr he
            · simp [hlen] at hes'
              rcases hes' with he | he
              · exact Or.inl he
              · exact Or.inr ((List.dropWhile_sublist _).subset he)
          rcases this with he | he
          · exact ⟨c + 1, Nat.le_refl _, he.symm⟩
          · obtain ⟨i, hic, hi⟩ := hstore e ⟨s, List.getElem?_mem hget, he⟩
            exact ⟨i, Nat.le_succ_of_le hic, hi⟩

/-- Claim C2: any value returned by `find_cycle(f, k, start)` lies on the
eventual cycle of the iteration sequence of `f` from `start`: there are
iteration indices `i < j` with `f^[i] start = f^[j] start = x`. -/
theorem find_cycle_on_cycle (f : Nat → Nat) (k start fuel x : Nat)
    (h : find_cycle f k start fuel = .ok x) :
    ∃ i j, i < j ∧ f^[i] start = x ∧ f^[j] start = x := by
  unfold find_cycle at h
  by_cases hk : k = 0
  · simp [hk] at h
  · simp only [hk, if_false] at h
    have hlt : start % k < k := Nat.mod_lt _ (Nat.pos_of_ne_zero hk)
    rw [List.getElem?_replicate] at h
    simp only [hlt, if_true] at h
    refine nivaschLoop_ok_on_cycle f k start x fuel _ 0 ?_ h
    intro e ⟨s', hs', hes'⟩
    rcases List.mem_or_eq_of_mem_set hs' with hs'old | hs'new
    · exact absurd hes' (by simp [List.eq_of_mem_replicate hs'old])
    · subst hs'new
      simp only [List.mem_cons, List.not_mem_nil, or_false] at hes'
      exact ⟨0, Nat.le_refl _, hes'.symm⟩

/-- Witness for C2: on `x ↦ (x+1) mod 3` from start 0 the loop returns 0,
which indeed repeats (indices 0 and 3). -/
theorem find_cycle_on_cycle_witness :
    ∃ i j, i < j ∧ (fun x => (x + 1) % 3)^[i] 0 = 0 ∧ (fun x => (x + 1) % 3)^[j] 0 = 0 :=
  find_cycle_on_cycle (fun x => (x + 1) % 3) 1 0 10 0 (by decide)

/-- With `k` stacks the loop never takes the out-of-bounds branch: every
computed index `next % k` is in bounds. -/
theorem nivaschLoop_no_indexOut (f : Nat → Nat) (k : Nat) (hk : 0 < k) :
    ∀ fuel (stks : List (List Nat)) curr, stks.length = k →
      nivaschLoop f k fuel stks curr ≠ .error .indexOut := by
  intro fuel
  induction fuel with
  | zero => intro stks curr _ h; simp [nivaschLoop] at h
  | succ fuel ih =>
    intro stks curr hlen h
    rw [nivaschLoop] at h
    have hlt : (f curr) % k < stks.length := by rw [hlen]; exact Nat.mod_lt _ hk
    rw [List.getElem?_eq_getElem hlt] at h
    by_cases hmem : f curr ∈ stks[(f curr) % k]
    · simp [hmem] at h
    · simp only [hmem, if_false] at h
      exact ih _ _ (by simp [hlen]) h

/-- Claim C10: for `k ≥ 1` every stack access of `find_cycle` is in bounds
(the out-of-range branch is unreachable), while `k = 0` fails immediately at
the initial `start % k` computation with a division-by-zero error. -/
theorem find_cycle_index_safety :
    (∀ (f : Nat → Nat) (k start fuel : Nat), 1 ≤ k →
        find_cycle f k start fuel ≠ .error .indexOut) ∧
      (∀ (f : Nat → Nat) (start fuel : Nat),
        find_cycle f 0 start fuel = .error .divByZero) := by
  constructor
  · intro f k start fuel hk h
    unfold find_cycle at h
    have hk0 : k ≠ 0 := Nat.pos_iff_ne_zero.mp hk
    simp only [hk0, if_false] at h
    have hlt : start % k < k := Nat.mod_lt _ hk
    rw [List.getElem?_replicate] at h
    simp only [hlt, if_true] at h
    exact nivaschLoop_no_indexOut f k hk fuel _ start (by simp) h
  · intro f start fuel
    simp [find_cycle]

/-- Witness for C10 at `k = 1` and `k = 0` on the identity self-map. -/
theorem find_cycle_index_safety_witness :
    (find_cycle (fun x => x) 1 0 5 ≠ .error .indexOut) ∧
      find_cycle (fun x => x) 0 0 5 = .error .divByZero :=
  ⟨find_cycle_index_safety.1 (fun x => x) 1 0 5 (by decide),
    find_cycle_index_safety.2 (fun x => x) 0 5⟩

/-- Elements that fail the predicate survive `dropWhile` (only a prefix of
elements satisfying the predicate is removed). -/
theorem mem_dropWhile_of_neg {p : Nat → Bool} :
    ∀ {l : List Nat} {a : Nat}, a ∈ l → p a = false → a ∈ l.dropWhile p := by
  intro l
  induction l with
  | nil => intro a ha _; cases ha
  | cons b t ih =>
    intro a ha hpa
    rw [List.dropWhile_cons]
    cases hpb : p b with
    | true =>
      simp only [hpb, if_true]
      rcases List.mem_cons.mp ha with hab | hat
      · rw [hab] at hpa; rw [hpa] at hpb; cases hpb
      · exact ih hat hpa
    | false =>
      simp only [hpb, Bool.false_eq_true, if_false]
      exact ha

/-- `getD` after `set` at the written index. -/
theorem getD_set_self (l : List (List Nat)) (i : Nat) (a : List Nat) (h : i < l.length) :
    (l.set i a).getD i [] = a := by
  simp [List.getD_eq_getElem?_getD, List.getElem?_set_self h]

/-- `getD` after `set` at a different index. -/
theorem getD_set_ne (l : List (List Nat)) (i j : Nat) (a : List Nat) (h : i ≠ j) :
    (l.set i a).getD j [] = l.getD j [] := by
  simp [List.getD_eq_getElem?_getD, List.getElem?_set_ne h]

/-- The stack update keeps each stack strictly decreasing head-to-tail
(= strictly increasing from bottom of the Python stack to its top): popping
removes exactly the top entries `> next`, so the new top below `next` is
`< next` (equality is excluded by the membership test that precedes the
update). -/
theorem updateStack_chain (next : Nat) (s : List Nat)
    (hchain : List.Chain' (fun a b => b < a) s) (hmem : next ∉ s) :
    List.Chain' (fun a b => b < a) (updateStack next s) := by
  unfold updateStack
  by_cases hlen : s.length = 0
  · simp only [hlen, if_true]
    rw [List.length_eq_zero.mp hlen]
    exact List.chain'_singleton next
  · simp only [hlen, if_false]
    rw [List.chain'_cons']
    refine ⟨?_, hchain.suffix (List.dropWhile_suffix _)⟩
    intro b hb
    rw [Option.mem_def] at hb
    have hhead := List.head?_dropWhile_not (fun t => decide (next < t)) s
    rw [hb] at hhead
    have hnb : ¬ next < b := of_decide_eq_false hhead
    have hbs : b ∈ s :=
      (List.dropWhile_sublist _).subset (List.mem_of_mem_head? (Option.mem_def.mpr hb))
    have hne : b ≠ next := fun he => hmem (he ▸ hbs)
    exact Nat.lt_of_le_of_ne (Nat.le_of_not_lt hnb) hne

/-- Every element of the updated stack is the pushed value or an old element. -/
theorem updateStack_mem (next : Nat) (s : List Nat) :
    ∀ e ∈ updateStack next s, e = next ∨ e ∈ s := by
  intro e he
  unfold updateStack at he
  by_cases hlen : s.length = 0
  · simp only [hlen, if_true] at he
    rcases List.mem_cons.mp he with h | h
    · exact Or.inl h
    · exact Or.inr h
  · simp only [hlen, if_false] at he
    rcases List.mem_cons.mp he with h | h
    · exact Or.inl h
    · exact Or.inr ((List.dropWhile_sublist _).subset h)

/-- One loop iteration preserves the stack-set invariant. -/
theorem StacksInv.update (k : Nat) (stks : List (List Nat)) (next : Nat) (s : List Nat)
    (hinv : StacksInv k stks) (hs : stks[next % k]? = some s) (hmem : next ∉ s) :
    StacksInv k (stks.set (next % k) (updateStack next s)) := by
  have hlt : next % k < stks.length := by
    by_contra hcon
    rw [List.getElem?_eq_none (Nat.le_of_not_lt hcon)] at hs
    cases hs
  have hsD : stks.getD (next % k) [] = s := by
    simp [List.getD_eq_getElem?_getD, hs]
  obtain ⟨hlen, hstk⟩ := hinv
  refine ⟨by simp [hlen], ?_⟩
  intro j hj
  rw [List.length_set] at hj
  by_cases hjeq : next % k = j
  · subst hjeq
    rw [getD_set_self _ _ _ hlt]
    have hold := hstk (next % k) hlt
    rw [hsD] at hold
    refine ⟨updateStack_chain next s hold.1 hmem, ?_⟩
    intro e he
    rcases updateStack_mem next s e he with h | h
    · rw [h]
    · exact hold.2 e h
  · rw [getD_set_ne _ _ _ _ hjeq]
    exact hstk j hj

/-- Every stack state in the loop's trace satisfies the invariant, given that
the initial state does. -/
theorem nivaschTrace_inv (f : Nat → Nat) (k : Nat) :
    ∀ fuel (stks : List (List Nat)) curr, StacksInv k stks →
      ∀ st ∈ nivaschTrace f k fuel stks curr, StacksInv k st := by
  intro fuel
  induction fuel with
  | zero =>
    intro stks curr hinv st hst
    rw [nivaschTrace] at hst
    simp only [List.mem_singleton] at hst
    exact hst ▸ hinv
  | succ fuel ih =>
    intro stks curr hinv st hst
    rw [nivaschTrace] at hst
    cases hget : stks[(f curr) % k]? with
    | none =>
      rw [hget] at hst
      simp only [List.mem_singleton] at hst
      exact hst ▸ hinv
    | some s =>
      rw [hget] at hst
      by_cases hmem : f curr ∈ s
      · simp only [hmem, if_true, List.mem_singleton] at hst
        exact hst ▸ hinv
      · simp only [hmem, if_false, List.mem_cons] at hst
        rcases hst with hst | hst
        · exact hst ▸ hinv
        · exact ih _ _ (StacksInv.update k stks (f curr) s hinv hget hmem) st hst

/-- Claim C7 (amended): throughout every execution of `find_cycle(f, k, start)`
with `k ≥ 1`, every stack is strictly INCREASING in value from bottom to top
(the spec's "strictly decreasing" has the direction reversed), and every point
stored in stack `j` satisfies `point mod k = j`. -/
theorem find_cycle_states_invariant (f : Nat → Nat) (k start fuel : Nat) (hk : 0 < k) :
    ∀ st ∈ find_cycle_states f k start fuel, StacksInv k st := by
  unfold find_cycle_states
  have hk0 : k ≠ 0 := Nat.pos_iff_ne_zero.mp hk
  simp only [hk0, if_false]
  have hlt : start % k < k := Nat.mod_lt _ hk
  rw [List.getElem?_replicate]
  simp only [hlt, if_true]
  refine nivaschTrace_inv f k fuel _ start ⟨by simp, ?_⟩
  intro j hj
  rw [List.length_set, List.length_replicate] at hj
  by_cases hjeq : start % k = j
  · subst hjeq
    rw [getD_set_self _ _ _ (by simp [hlt])]
    exact ⟨List.chain'_singleton start, by
      intro e he
      simp only [List.mem_singleton] at he
      rw [he]⟩
  · rw [getD_set_ne _ _ _ _ hjeq]
    constructor
    · cases hget : (List.replicate k ([] : List Nat)).getD j [] with
      | nil => exact List.chain'_nil
      | cons a t =>
        exfalso
        by_cases hjk : j < k
        · have : (List.replicate k ([] : List Nat)).getD j [] = [] := by
            simp [List.getD_eq_getElem?_getD, List.getElem?_replicate, hjk]
          rw [hget] at this; cases this
        · have : (List.replicate k ([] : List Nat)).getD j [] = [] := by
            simp [List.getD_eq_getElem?_getD, List.getElem?_replicate, hjk]
          rw [hget] at this; cases this
    · intro e he
      by_cases hjk : j < k
      · have : (List.replicate k ([] : List Nat)).getD j [] = [] := by
          simp [List.getD_eq_getElem?_getD, List.getElem?_replicate, hjk]
        rw [this] at he; cases he
      · have : (List.replicate k ([] : List Nat)).getD j [] = [] := by
          simp [List.getD_eq_getElem?_getD, List.getElem?_replicate, hjk]
        rw [this] at he; cases he

/-- Witness for C7 (amended), applying the invariant theorem to a concrete
reachable stack state. -/
theorem find_cycle_states_invariant_witness : StacksInv 1 [[1, 0]] :=
  find_cycle_states_invariant (fun x => (x + 1) % 5) 1 0 3 (by decide) [[1, 0]] (by decide)

/-- Counterexample to C7 as stated: in the run of `find_cycle` on
`x ↦ (x+1) mod 5` with one stack from start 0, the reachable stack state
whose single stack holds bottom 0, top 1 (Lean list `[1, 0]`, head = top) is
NOT strictly decreasing from bottom to top. -/
theorem find_cycle_states_claim_false :
    [[1, 0]] ∈ find_cycle_states (fun x => (x + 1) % 5) 1 0 3 ∧
      ¬ StacksDecreasing 1 [[1, 0]] := by
  constructor
  · have h : find_cycle_states (fun x => (x + 1) % 5) 1 0 3 =
        [[[0]], [[1, 0]], [[2, 1, 0]], [[3, 2, 1, 0]]] := by rfl
    rw [h]
    simp
  · intro hsd
    have h0 := (hsd.2 0 (by decide)).1
    simp only [List.getD_cons_zero] at h0
    rw [List.chain'_cons] at h0
    exact absurd h0.1 (by decide)

/-- Claim C4: for every oracle (in each of the three regimes) and every
working-domain value `x`, evaluating the oracle at `recover_x x` gives the
same output as evaluating the adapted self-map at `x`. -/
theorem recover_x_roundtrip (F : ModifiedPRF) (x : Nat) :
    F.f.«calc» (F.recover_x x) = F.«calc» x := by
  unfold ModifiedPRF.recover_x ModifiedPRF.«calc»
  by_cases h1 : F.f.domain < F.f.rang
  · simp [h1]
  · by_cases h2 : F.f.domain > F.f.rang
    · simp [h1, h2]
    · simp [h1, h2]

/-- Claim C8 (amended): `ModifiedPRF` construction performs no validation of
the published sizes at all: for every oracle — also one violating
`domain ≤ rang²` or `rang ≤ domain²` — it succeeds and simply stores the
oracle (callers must ensure the invariant themselves). -/
theorem modifiedPRF_init_no_validation (f : Oracle) : (ModifiedPRF.init f).f = f := rfl

/-- Counterexample to C8 as stated: an oracle with published sizes
`domain = 8`, `rang = 1` violates `domain ≤ rang²`, yet construction succeeds
and returns the adapter storing it — there is no invalid-configuration
failure at construction time (`ModifiedPRF.init` cannot fail). -/
theorem modifiedPRF_init_accepts_invalid :
    (ModifiedPRF.init ⟨fun _ => 0, 8, 1⟩).f.domain = 8 ∧
      (ModifiedPRF.init ⟨fun _ => 0, 8, 1⟩).f.rang = 1 ∧
      ¬ ((8 : Nat) ≤ 1 ^ 2) :=
  ⟨rfl, rfl, by decide⟩

/-- A chain replay only returns a value `x` whose guard
`f_tag.calc(x) == y` was just checked. -/
theorem chainSearch_sound (F : ModifiedPRF) (i y : Nat) :
    ∀ t a x, chainSearch F i y t a = some x → F.«calc» x = y := by
  intro t
  induction t with
  | zero => intro a x h; simp [chainSearch] at h
  | succ t ih =>
    intro a x h
    rw [chainSearch] at h
    by_cases hg : F.«calc» ((a + i) % F.f.domain) = y
    · rw [if_pos hg] at h
      simp only [Option.some.injEq] at h
      rw [← h]
      exact hg
    · rw [if_neg hg] at h
      exact ih _ x h

/-- Replaying any recorded start only returns confirmed preimages. -/
theorem startsSearch_sound (F : ModifiedPRF) (i t y : Nat) :
    ∀ lst x, startsSearch F i t y lst = some x → F.«calc» x = y := by
  intro lst
  induction lst with
  | nil => intro x h; simp [startsSearch] at h
  | cons a rest ih =>
    intro x h
    rw [startsSearch] at h
    cases hc : chainSearch F i y t a with
    | some x' =>
      rw [hc] at h
      simp only [Option.some.injEq] at h
      exact h ▸ chainSearch_sound F i y t a x' hc
    | none =>
      rw [hc] at h
      exact ih x h

/-- A successful walk over one table only returns confirmed preimages. -/
theorem tableWalk_sound (F : ModifiedPRF) (i t y : Nat) :
    ∀ steps curr T x T', tableWalk F i t y steps curr T = (some x, T') →
      F.«calc» x = y := by
  intro steps
  induction steps with
  | zero => intro curr T x T' h; simp [tableWalk] at h
  | succ steps ih =>
    intro curr T x T' h
    rw [tableWalk] at h
    rcases hdg : dGet T curr with ⟨lst, T2⟩
    rw [hdg] at h
    dsimp only at h
    by_cases hlen : lst.length > 0
    · rw [if_pos hlen] at h
      cases hs : startsSearch F i t y lst with
      | some x' =>
        rw [hs] at h
        simp only [Prod.mk.injEq, Option.some.injEq] at h
        exact h.1 ▸ startsSearch_sound F i t y lst x' hs
      | none =>
        rw [hs] at h
        exact ih _ _ x T' h
    · rw [if_neg hlen] at h
      exact ih _ _ x T' h

/-- The outer table loop only returns confirmed preimages. -/
theorem onlineGo_sound (F : ModifiedPRF) (t y : Nat) :
    ∀ tables i x tables', onlineGo F t y i tables = (some x, tables') →
      F.«calc» x = y := by
  intro tables
  induction tables with
  | nil => intro i x tables' h; simp [onlineGo] at h
  | cons T rest ih =>
    intro i x tables' h
    rw [onlineGo] at h
    rcases hw : tableWalk F i t y t y T with ⟨r, T'⟩
    rw [hw] at h
    cases r with
    | some x' =>
      simp only [Prod.mk.injEq, Option.some.injEq] at h
      exact h.1 ▸ tableWalk_sound F i t y t y T x' T' hw
    | none =>
      rcases ho : onlineGo F t y (i + 1) rest with ⟨r', rest'⟩
      rw [ho] at h
      simp only [Prod.mk.injEq] at h
      exact ih (i + 1) x rest' (by rw [ho, h.1])

/-- Claim C3: if `hellman_online(tables, t, y, f')` returns a value `x` (not
`None`), then `x` is a confirmed preimage: the adapted self-map applied to `x`
equals `y`.  (The only other possible result of the total embedding is
`none`, the normal "not found" outcome — no error is raised.) -/
theorem hellman_online_sound (tables : List Table) (t y : Nat) (F : ModifiedPRF)
    (x : Nat) (tables' : List Table)
    (h : hellman_online tables t y F = (some x, tables')) :
    F.«calc» x = y :=
  onlineGo_sound F t y tables 0 x tables' h

/-- Witness for C3 on a one-entry table hitting immediately. -/
theorem hellman_online_sound_witness :
    ModifiedPRF.«calc» ⟨⟨fun _ => 7, 10, 10⟩⟩ 3 = 7 :=
  hellman_online_sound [[(7, [3])]] 1 7 ⟨⟨fun _ => 7, 10, 10⟩⟩ 3 [[(7, [3])]] (by decide)

/-- A key present in an association table stays present (with the same value)
after appending entries on the right. -/
theorem lookup_append_of_some {T : Table} {k : Nat} {v : List Nat}
    (h : T.lookup k = some v) (rest : Table) : (T ++ rest).lookup k = some v := by
  induction T with
  | nil => simp at h
  | cons p T ih =>
    obtain ⟨a, b⟩ := p
    rw [List.cons_append, List.lookup_cons]
    rw [List.lookup_cons] at h
    by_cases hk : k = a
    · simp only [hk, beq_self_eq_true] at h ⊢
      exact h
    · have : (k == a) = false := beq_false_of_ne hk
      rw [this] at h ⊢
      exact ih h

/-- A key found in an appended association table was in one of the parts. -/
theorem lookup_append_cases {T rest : Table} {k : Nat} {v : List Nat}
    (h : (T ++ rest).lookup k = some v) :
    T.lookup k = some v ∨ rest.lookup k = some v := by
  induction T with
  | nil => exact Or.inr (by simpa using h)
  | cons p T ih =>
    obtain ⟨a, b⟩ := p
    rw [List.cons_append, List.lookup_cons] at h
    rw [List.lookup_cons]
    by_cases hk : k = a
    · simp only [hk, beq_self_eq_true] at h ⊢
      exact Or.inl h
    · have : (k == a) = false := beq_false_of_ne hk
      rw [this] at h ⊢
      exact ih h

theorem tablePreserved_refl (T : Table) : TablePreserved T T :=
  ⟨fun _ _ h => h, fun _ _ h => Or.inl h⟩

theorem tablePreserved_trans {T1 T2 T3 : Table}
    (h12 : TablePreserved T1 T2) (h23 : TablePreserved T2 T3) :
    TablePreserved T1 T3 := by
  refine ⟨fun k v h => h23.1 k v (h12.1 k v h), fun k v h => ?_⟩
  rcases h23.2 k v h with h' | h'
  · exact h12.2 k v h'
  · exact Or.inr h'

/-- A `defaultdict` read preserves every existing entry and only ever inserts
an empty list. -/
theorem dGet_preserves (T : Table) (key : Nat) : TablePreserved T (dGet T key).2 := by
  unfold dGet
  cases hl : T.lookup key with
  | some v => exact tablePreserved_refl T
  | none =>
    constructor
    · intro k v h
      exact lookup_append_of_some h _
    · intro k v h
      rcases lookup_append_cases h with h' | h'
      · exact Or.inl h'
      · rw [List.lookup_cons] at h'
        by_cases hk : k = key
        · simp only [hk, beq_self_eq_true] at h'
          simp only [Option.some.injEq] at h'
          exact Or.inr h'.symm
        · have : (k == key) = false := beq_false_of_ne hk
          rw [this] at h'
          simp at h'

/-- The walk over one table only performs `defaultdict` reads, so it preserves
every existing entry and only inserts empty lists. -/
theorem tableWalk_preserves (F : ModifiedPRF) (i t y : Nat) :
    ∀ steps curr T, TablePreserved T (tableWalk F i t y steps curr T).2 := by
  intro steps
  induction steps with
  | zero => intro curr T; exact tablePreserved_refl T
  | succ steps ih =>
    intro curr T
    rw [tableWalk]
    rcases hdg : dGet T curr with ⟨lst, T2⟩
    dsimp only
    have hpre : TablePreserved T T2 := by
      have := dGet_preserves T curr
      rw [hdg] at this
      exact this
    cases hs : (if lst.length > 0 then startsSearch F i t y lst else none) with
    | some x => exact hpre
    | none => exact tablePreserved_trans hpre (ih _ T2)

/-- The outer loop preserves the table list elementwise. -/
theorem onlineGo_preserves (F : ModifiedPRF) (t y : Nat) :
    ∀ tables i, (onlineGo F t y i tables).2.length = tables.length ∧
      ∀ j, j < tables.length →
        TablePreserved (tables.getD j []) ((onlineGo F t y i tables).2.getD j []) := by
  intro tables
  induction tables with
  | nil =>
    intro i
    exact ⟨rfl, fun j hj => absurd hj (by simp)⟩
  | cons T rest ih =>
    intro i
    rw [onlineGo]
    rcases hw : tableWalk F i t y t y T with ⟨r, T'⟩
    have hTpre : TablePreserved T T' := by
      have := tableWalk_preserves F i t y t y T
      rw [hw] at this
      exact this
    cases r with
    | some x =>
      refine ⟨by simp, ?_⟩
      intro j hj
      cases j with
      | zero => simpa using hTpre
      | succ j => exact tablePreserved_refl _
    | none =>
      rcases ho : onlineGo F t y (i + 1) rest with ⟨r', rest'⟩
      have hih := ih (i + 1)
      rw [ho] at hih
      refine ⟨by simpa using hih.1, ?_⟩
      intro j hj
      cases j with
      | zero => simpa using hTpre
      | succ j =>
        simp only [List.getD_cons_succ]
        exact hih.2 j (by simpa using hj)

/-- Claim C6 (amended): `hellman_online` preserves every table entrywise —
same number of tables, and every endpoint key present before the call still
maps to the same ordered start list afterwards — but the `defaultdict` reads
insert each visited missing key with an EMPTY start list, so the key set may
grow; any entry present only after the call carries the empty list (no
start-point data is ever modified). -/
theorem hellman_online_preserves (tables : List Table) (t y : Nat) (F : ModifiedPRF) :
    (hellman_online tables t y F).2.length = tables.length ∧
      ∀ j, j < tables.length →
        TablePreserved (tables.getD j []) ((hellman_online tables t y F).2.getD j []) :=
  onlineGo_preserves F t y tables 0

/-- Witness for C6 (amended) on a concrete online run. -/
theorem hellman_online_preserves_witness :
    TablePreserved [(7, [3])]
      ((hellman_online [[(7, [3])]] 1 7 ⟨⟨fun _ => 7, 10, 10⟩⟩).2.getD 0 []) :=
  (hellman_online_preserves [[(7, [3])]] 1 7 ⟨⟨fun _ => 7, 10, 10⟩⟩).2 0 (by decide)

/-- Counterexample to C6 as stated: on the (preprocessable, e.g. with zero
chains) empty table, an online query for `y = 0` leaves behind the new
endpoint key `0` (with empty start list): the set of endpoint keys after the
call differs from the set before it. -/
theorem hellman_online_mutates :
    hellman_preprocess [[]] 1 ⟨⟨fun _ => 0, 1, 1⟩⟩ = [[]] ∧
      hellman_online [[]] 1 0 ⟨⟨fun _ => 0, 1, 1⟩⟩ = (none, [[(0, [])]]) ∧
      ([[(0, [])]] : List Table) ≠ ([[]] : List Table) :=
  ⟨rfl, rfl, by decide⟩

/-- Adding whole periods to the iteration index does not change the value. -/
theorem iterate_add_period (f : Nat → Nat) (x lam : Nat) (hp : f^[lam] x = x) :
    ∀ q a, f^[a + q * lam] x = f^[a] x := by
  intro q
  induction q with
  | zero => intro a; simp
  | succ q ih =>
    intro a
    have he : a + (q + 1) * lam = (a + q * lam) + lam := by ring
    rw [he, Function.iterate_add_apply, hp]
    exact ih a

/-- Iteration indices can be reduced modulo a period. -/
theorem iterate_mod_period (f : Nat → Nat) (x lam : Nat) (_hlam : 0 < lam)
    (hp : f^[lam] x = x) (a : Nat) : f^[a] x = f^[a % lam] x := by
  have h1 : a % lam + (a / lam) * lam = a := by
    rw [Nat.mul_comm]
    exact Nat.mod_add_div a lam
  calc f^[a] x = f^[a % lam + (a / lam) * lam] x := by rw [h1]
    _ = f^[a % lam] x := iterate_add_period f x lam hp (a / lam) (a % lam)

/-- Below the minimal period, iterates of a periodic point are pairwise
distinct. -/
theorem iterate_inj_of_minimal (f : Nat → Nat) (x lam : Nat)
    (hp : f^[lam] x = x) (hmin : ∀ m, 0 < m → m < lam → f^[m] x ≠ x) :
    ∀ a b, a < lam → b < lam → f^[a] x = f^[b] x → a = b := by
  have key : ∀ a b, a < lam → b < lam → a < b → f^[a] x = f^[b] x → False := by
    intro a b ha hb hab he
    have h2 : f^[lam - b] (f^[b] x) = x := by
      rw [← Function.iterate_add_apply, Nat.sub_add_cancel (Nat.le_of_lt hb)]
      exact hp
    have h1 : f^[lam - b + a] x = x := by
      calc f^[lam - b + a] x = f^[lam - b] (f^[a] x) := Function.iterate_add_apply f _ a x
        _ = f^[lam - b] (f^[b] x) := by rw [he]
        _ = x := h2
    exact hmin _ (by omega) (by omega) h1
  intro a b ha hb he
  rcases Nat.lt_trichotomy a b with h | h | h
  · exact (key a b ha hb h he).elim
  · exact h
  · exact (key b a hb ha h he.symm).elim

/-- When `start` is periodic with minimal period `lam ≥ 2`, the race loop of
`find_collision` meets after exactly `lam - 1` rounds, and the meeting point
is `start` itself. -/
theorem race_on_cycle (f : Nat → Nat) (start lam : Nat) (h2 : 2 ≤ lam)
    (hp : f^[lam] start = start)
    (hmin : ∀ m, 0 < m → m < lam → f^[m] start ≠ start) :
    ∀ d c fuel, c + d + 1 = lam → d + 1 ≤ fuel →
      race f fuel (f^[1 + c] start) (f^[2 + 2 * c] start) c = some (lam - 1, start) := by
  intro d
  induction d with
  | zero =>
    intro c fuel hc hfuel
    obtain ⟨fu, rfl⟩ : ∃ fu, fuel = fu + 1 := ⟨fuel - 1, by omega⟩
    rw [race]
    have hc1 : 1 + c = lam := by omega
    have h1 : f^[1 + c] start = start := by rw [hc1]; exact hp
    have h2' : f^[2 + 2 * c] start = start := by
      have he : 2 + 2 * c = lam + lam := by omega
      rw [he, Function.iterate_add_apply, hp, hp]
    rw [h1, h2']
    have hcd : c = lam - 1 := by omega
    rw [if_pos rfl, hcd]
  | succ d ih =>
    intro c fuel hc hfuel
    obtain ⟨fu, rfl⟩ : ∃ fu, fuel = fu + 1 := ⟨fuel - 1, by omega⟩
    rw [race]
    have hlam0 : 0 < lam := by omega
    have hne : f^[1 + c] start ≠ f^[2 + 2 * c] start := by
      intro he
      rw [iterate_mod_period f start lam hlam0 hp (1 + c),
          iterate_mod_period f start lam hlam0 hp (2 + 2 * c)] at he
      have hmm : (1 + c) % lam = (2 + 2 * c) % lam :=
        iterate_inj_of_minimal f start lam hp hmin _ _
          (Nat.mod_lt _ hlam0) (Nat.mod_lt _ hlam0) he
      have hmod : Nat.ModEq lam (1 + c) (2 + 2 * c) := hmm
      have hdvd : lam ∣ (2 + 2 * c) - (1 + c) := (Nat.modEq_iff_dvd' (by omega)).mp hmod
      have hsub : (2 + 2 * c) - (1 + c) = 1 + c := by omega
      rw [hsub] at hdvd
      have := Nat.le_of_dvd (by omega) hdvd
      omega
    rw [if_neg hne]
    have s1 : f (f^[1 + c] start) = f^[1 + (c + 1)] start := by
      have he1 : 1 + (c + 1) = (1 + c) + 1 := by omega
      rw [he1, Function.iterate_succ_apply']
    have s2 : f (f (f^[2 + 2 * c] start)) = f^[2 + 2 * (c + 1)] start := by
      have he2 : 2 + 2 * (c + 1) = ((2 + 2 * c) + 1) + 1 := by omega
      rw [he2, Function.iterate_succ_apply', Function.iterate_succ_apply']
    rw [s1, s2]
    exact ih (c + 1) fu (by omega) (by omega)

/-- The verification walk reports `true` whenever some iterate of its
starting point within the step budget equals `start`. -/
theorem checkStart_finds (f : Nat → Nat) (start : Nat) :
    ∀ n p, (∃ i, 1 ≤ i ∧ i ≤ n ∧ f^[i] p = start) → checkStart f n p start = true := by
  intro n
  induction n with
  | zero =>
    intro p h
    obtain ⟨i, hi1, hi0, _⟩ := h
    omega
  | succ n ih =>
    intro p h
    obtain ⟨i, hi1, hin, hip⟩ := h
    rw [checkStart]
    by_cases hf : f p = start
    · rw [if_pos hf]
    · rw [if_neg hf]
      refine ih (f p) ⟨i - 1, ?_, by omega, ?_⟩
      · rcases Nat.eq_or_lt_of_le hi1 with h1 | h1
        · exfalso
          apply hf
          rw [← h1] at hip
          simpa using hip
        · omega
      · rw [← Function.iterate_succ_apply f (i - 1) p]
        simp only [Nat.succ_eq_add_one]
        have he : i - 1 + 1 = i := by omega
        rw [he]
        exact hip

/-- Claim C5: if `start` lies on the cycle of its own iteration sequence
(`f^[n] start = start` for some `n ≥ 1`) and is not a fixed point, then
`find_collision` (with fuel at least `n`) returns the degenerate pair
`(start, start)`: the verification walk of twice the round count from the
meeting point revisits `start`. -/
theorem find_collision_start_on_cycle (f : Nat → Nat) (start n fuel : Nat)
    (hn : 0 < n) (hper : f^[n] start = start) (hfix : f start ≠ start)
    (hfuel : n ≤ fuel) :
    find_collision f start fuel = some (start, start) := by
  have hex : ∃ m, 0 < m ∧ f^[m] start = start := ⟨n, hn, hper⟩
  obtain ⟨hlampos, hlamper⟩ := Nat.find_spec hex
  have hmin : ∀ m, 0 < m → m < Nat.find hex → f^[m] start ≠ start := by
    intro m hm hmlam hcon
    exact Nat.find_min hex hmlam ⟨hm, hcon⟩
  have hlamle : Nat.find hex ≤ n := Nat.find_min' hex ⟨hn, hper⟩
  have h2 : 2 ≤ Nat.find hex := by
    by_contra hcon
    have h1 : Nat.find hex = 1 := by omega
    apply hfix
    rw [h1] at hlamper
    simpa using hlamper
  rw [find_collision, if_neg hfix]
  have hrace : race f fuel (f start) (f (f start)) 0 =
      some (Nat.find hex - 1, start) :=
    race_on_cycle f start (Nat.find hex) h2 hlamper hmin (Nat.find hex - 1) 0 fuel
      (by omega) (by omega)
  rw [hrace]
  have hcheck : checkStart f ((Nat.find hex - 1) * 2) start start = true :=
    checkStart_finds f start ((Nat.find hex - 1) * 2) start
      ⟨Nat.find hex, by omega, by omega, hlamper⟩
  dsimp only
  rw [if_pos hcheck]

/-- Witness for C5: on the pure cycle `x ↦ (x+1) mod 3` every start lies on
the cycle, and `find_collision` indeed reports the degenerate pair. -/
theorem find_collision_start_on_cycle_witness :
    find_collision (fun x => (x + 1) % 3) 0 3 = some (0, 0) :=
  find_collision_start_on_cycle (fun x => (x + 1) % 3) 0 3 3 (by decide)
    (by decide) (by decide) (by decide)

/-- A self-map of `{0, ..., N-1}` keeps all iterates of an in-range start in
range. -/
theorem iterate_lt_of_closed (f : Nat → Nat) (N start : Nat)
    (hN : ∀ x, x < N → f x < N) (hstart : start < N) : ∀ m, f^[m] start < N := by
  intro m
  induction m with
  | zero => simpa using hstart
  | succ m ih =>
    rw [Function.iterate_succ_apply']
    exact hN _ ih

/-- Pigeonhole over the finite working domain: some two iterates coincide. -/
theorem exists_iterate_repeat (f : Nat → Nat) (N start : Nat)
    (hN : ∀ x, x < N → f x < N) (hstart : start < N) :
    ∃ i j, i < j ∧ f^[i] start = f^[j] start := by
  have hlt := iterate_lt_of_closed f N start hN hstart
  have hcard : Fintype.card (Fin N) < Fintype.card (Fin (N + 1)) := by simp
  obtain ⟨a, b, hab, hg⟩ :=
    Fintype.exists_ne_map_eq_of_card_lt
      (fun m : Fin (N + 1) => (⟨f^[m.val] start, hlt m.val⟩ : Fin N)) hcard
  have hval : f^[a.val] start = f^[b.val] start := congrArg Fin.val hg
  rcases Nat.lt_or_ge a.val b.val with h | h
  · exact ⟨a.val, b.val, h, hval⟩
  · have hne : a.val ≠ b.val := fun he => hab (Fin.ext he)
    exact ⟨b.val, a.val, by omega, hval.symm⟩

/-- After the first repetition, the iteration sequence is periodic. -/
theorem iterate_eventually_periodic (f : Nat → Nat) (start i p : Nat)
    (hper : f^[i] start = f^[i + p] start) :
    ∀ m, i ≤ m → f^[m + p] start = f^[m] start := by
  intro m hm
  have h1 : f^[m + p] start = f^[m - i] (f^[i + p] start) := by
    rw [← Function.iterate_add_apply]
    congr 1
    omega
  have h2 : f^[m] start = f^[m - i] (f^[i] start) := by
    rw [← Function.iterate_add_apply]
    congr 1
    omega
  rw [h1, ← hper, ← h2]

/-- Multiples of the period can be removed from the iteration index. -/
theorem iterate_periodic_mul (f : Nat → Nat) (start i p : Nat)
    (hper : f^[i] start = f^[i + p] start) :
    ∀ q m, i ≤ m → f^[m + q * p] start = f^[m] start := by
  intro q
  induction q with
  | zero => intro m _; simp
  | succ q ih =>
    intro m hm
    have he : m + (q + 1) * p = (m + q * p) + p := by ring
    rw [he, iterate_eventually_periodic f start i p hper (m + q * p) (by omega)]
    exact ih m hm

/-- Beyond the tail, every iterate equals one of the `p` iterates directly
after index `i`. -/
theorem iterate_reduce (f : Nat → Nat) (start i p : Nat) (_hp : 0 < p)
    (hper : f^[i] start = f^[i + p] start) :
    ∀ m, i ≤ m → f^[m] start = f^[i + (m - i) % p] start := by
  intro m hm
  have h1 : (i + (m - i) % p) + ((m - i) / p) * p = m := by
    rw [Nat.mul_comm ((m - i) / p) p]
    have := Nat.mod_add_div (m - i) p
    omega
  calc f^[m] start = f^[(i + (m - i) % p) + ((m - i) / p) * p] start := by rw [h1]
    _ = f^[i + (m - i) % p] start :=
      iterate_periodic_mul f start i p hper ((m - i) / p) _ (by omega)

/-- The pushed value is always a member of the updated stack. -/
theorem mem_updateStack_self (v : Nat) (s : List Nat) : v ∈ updateStack v s := by
  unfold updateStack
  split
  · exact List.mem_cons_self _ _
  · exact List.mem_cons_self _ _

/-- One more application of `f` raises the iteration index by one. -/
theorem iterate_succ_shift (f : Nat → Nat) (x : Nat) (a : Nat) :
    f (f^[a] x) = f^[a + 1] x := (Function.iterate_succ_apply' f a x).symm

/-- Progress lemma: once the minimal cycle value `M` sits in its stack, the
loop returns within one period.  All later steps see values `≥ M`, which pop
condition `top > next` never removes `M`; when the iteration returns to `M`
after a full period, the membership test fires (or the loop has already
returned on another repeat). -/
theorem nivaschLoop_find_min (f : Nat → Nat) (k start M mstar p : Nat)
    (hk : 0 < k)
    (hMp : f^[mstar + p] start = M)
    (hge : ∀ c, mstar < c → c ≤ mstar + p → M ≤ f^[c] start) :
    ∀ d, 1 ≤ d → d ≤ p → ∀ (stks : List (List Nat)) fuel, stks.length = k →
      d ≤ fuel → (∃ s, stks[M % k]? = some s ∧ M ∈ s) →
      ∃ x, nivaschLoop f k fuel stks (f^[mstar + p - d] start) = .ok x := by
  intro d hd1
  induction d, hd1 using Nat.le_induction with
  | base =>
    intro hdp stks fuel hlen hfuel hmem
    obtain ⟨fu, rfl⟩ : ∃ fu, fuel = fu + 1 := ⟨fuel - 1, by omega⟩
    obtain ⟨s, hsome, hMs⟩ := hmem
    rw [nivaschLoop]
    have hnext : f (f^[mstar + p - 1] start) = M := by
      rw [iterate_succ_shift f start (mstar + p - 1),
        show mstar + p - 1 + 1 = mstar + p from by omega, hMp]
    rw [hnext, hsome]
    dsimp only
    rw [if_pos hMs]
    exact ⟨M, rfl⟩
  | succ d hd ih =>
    intro hdp stks fuel hlen hfuel hmem
    obtain ⟨fu, rfl⟩ : ∃ fu, fuel = fu + 1 := ⟨fuel - 1, by omega⟩
    rw [nivaschLoop]
    have hnext : f (f^[mstar + p - (d + 1)] start) = f^[mstar + p - d] start := by
      rw [iterate_succ_shift f start (mstar + p - (d + 1)),
        show mstar + p - (d + 1) + 1 = mstar + p - d from by omega]
    rw [hnext]
    have hcb : M ≤ f^[mstar + p - d] start :=
      hge (mstar + p - d) (by omega) (by omega)
    have hltk : (f^[mstar + p - d] start) % k < stks.length := by
      rw [hlen]
      exact Nat.mod_lt _ hk
    cases hget : stks[(f^[mstar + p - d] start) % k]? with
    | none =>
      exfalso
      rw [List.getElem?_eq_getElem hltk] at hget
      cases hget
    | some s' =>
      dsimp only
      by_cases hin : f^[mstar + p - d] start ∈ s'
      · rw [if_pos hin]
        exact ⟨_, rfl⟩
      · rw [if_neg hin]
        obtain ⟨s, hsome, hMs⟩ := hmem
        refine ih (by omega) _ fu (by simp [hlen]) (by omega) ?_
        by_cases hidx : (f^[mstar + p - d] start) % k = M % k
        · refine ⟨updateStack (f^[mstar + p - d] start) s', ?_, ?_⟩
          · rw [← hidx]
            exact List.getElem?_set_self hltk
          · have hs's : s' = s := by
              rw [hidx] at hget
              rw [hget] at hsome
              exact Option.some.inj hsome
            have hMs' : M ∈ s' := by rw [hs's]; exact hMs
            unfold updateStack
            have hl0 : ¬ s'.length = 0 := by
              intro h0
              rw [List.length_eq_zero.mp h0] at hMs'
              cases hMs'
            rw [if_neg hl0]
            exact List.mem_cons.mpr (Or.inr (mem_dropWhile_of_neg hMs'
              (decide_eq_false (Nat.not_lt.mpr hcb))))
        · exact ⟨s, by rw [List.getElem?_set_ne hidx]; exact hsome, hMs⟩

/-- Reaching lemma: starting anywhere up to `e` steps before the first
occurrence of the minimal cycle value `M`, the loop either returns early or
pushes `M` at its step and then returns within a period (via
`nivaschLoop_find_min`). -/
theorem nivaschLoop_reach_min (f : Nat → Nat) (k start M mstar p : Nat)
    (hk : 0 < k) (hp : 0 < p)
    (hM : f^[mstar] start = M)
    (hMp : f^[mstar + p] start = M)
    (hge : ∀ c, mstar < c → c ≤ mstar + p → M ≤ f^[c] start) :
    ∀ e, 1 ≤ e → e ≤ mstar → ∀ (stks : List (List Nat)) fuel, stks.length = k →
      e + p ≤ fuel →
      ∃ x, nivaschLoop f k fuel stks (f^[mstar - e] start) = .ok x := by
  intro e he1
  induction e, he1 using Nat.le_induction with
  | base =>
    intro hem stks fuel hlen hfuel
    obtain ⟨fu, rfl⟩ : ∃ fu, fuel = fu + 1 := ⟨fuel - 1, by omega⟩
    rw [nivaschLoop]
    have hnext : f (f^[mstar - 1] start) = M := by
      rw [iterate_succ_shift f start (mstar - 1),
        show mstar - 1 + 1 = mstar from by omega, hM]
    rw [hnext]
    have hltk : M % k < stks.length := by
      rw [hlen]
      exact Nat.mod_lt _ hk
    cases hget : stks[M % k]? with
    | none =>
      exfalso
      rw [List.getElem?_eq_getElem hltk] at hget
      cases hget
    | some s =>
      dsimp only
      by_cases hin : M ∈ s
      · rw [if_pos hin]
        exact ⟨M, rfl⟩
      · rw [if_neg hin]
        have hA := nivaschLoop_find_min f k start M mstar p hk hMp hge p
          (by omega) (le_refl p) (stks.set (M % k) (updateStack M s)) fu
          (by simp [hlen]) (by omega)
          ⟨updateStack M s, List.getElem?_set_self hltk, mem_updateStack_self M s⟩
        have hMM : f^[mstar + p - p] start = M := by
          rw [show mstar + p - p = mstar from by omega]
          exact hM
        rwa [hMM] at hA
  | succ e he ih =>
    intro hem stks fuel hlen hfuel
    obtain ⟨fu, rfl⟩ : ∃ fu, fuel = fu + 1 := ⟨fuel - 1, by omega⟩
    rw [nivaschLoop]
    have hnext : f (f^[mstar - (e + 1)] start) = f^[mstar - e] start := by
      rw [iterate_succ_shift f start (mstar - (e + 1)),
        show mstar - (e + 1) + 1 = mstar - e from by omega]
    rw [hnext]
    have hltk : (f^[mstar - e] start) % k < stks.length := by
      rw [hlen]
      exact Nat.mod_lt _ hk
    cases hget : stks[(f^[mstar - e] start) % k]? with
    | none =>
      exfalso
      rw [List.getElem?_eq_getElem hltk] at hget
      cases hget
    | some s =>
      dsimp only
      by_cases hin : f^[mstar - e] start ∈ s
      · rw [if_pos hin]
        exact ⟨_, rfl⟩
      · rw [if_neg hin]
        exact ih (by omega) _ fu (by simp [hlen]) (by omega)

/-- Claim C9: over a finite working domain (`f` maps `{0..N-1}` into itself,
`start < N`) and with `k ≥ 1`, `find_cycle(f, k, start)` terminates with a
value: for sufficient fuel the loop returns `.ok x` — by pigeonhole some
iterate repeats, and the minimal value of the eventual cycle is pushed, never
popped, and detected one period later at the latest. -/
theorem find_cycle_terminates (f : Nat → Nat) (N k start : Nat) (hk : 0 < k)
    (hN : ∀ x, x < N → f x < N) (hstart : start < N) :
    ∃ fuel x, find_cycle f k start fuel = Except.ok x := by
  obtain ⟨i, j, hij, hrep⟩ := exists_iterate_repeat f N start hN hstart
  have hp : 0 < j - i := by omega
  have hper : f^[i] start = f^[i + (j - i)] start := by
    rw [show i + (j - i) = j from by omega]
    exact hrep
  have hSne : ((Finset.range (j - i)).image (fun r => f^[i + r] start)).Nonempty :=
    ⟨f^[i + 0] start, Finset.mem_image.mpr ⟨0, Finset.mem_range.mpr hp, rfl⟩⟩
  obtain ⟨r, hrp, hrM⟩ : ∃ r, r < j - i ∧ f^[i + r] start =
      ((Finset.range (j - i)).image (fun r => f^[i + r] start)).min' hSne := by
    obtain ⟨r, hr, hrM⟩ := Finset.mem_image.mp (Finset.min'_mem _ hSne)
    exact ⟨r, Finset.mem_range.mp hr, hrM⟩
  have hge_all : ∀ m, i ≤ m →
      ((Finset.range (j - i)).image (fun r => f^[i + r] start)).min' hSne ≤
        f^[m] start := by
    intro m hm
    rw [iterate_reduce f start i (j - i) hp hper m hm]
    exact Finset.min'_le _ _
      (Finset.mem_image.mpr ⟨(m - i) % (j - i),
        Finset.mem_range.mpr (Nat.mod_lt _ hp), rfl⟩)
  have hMp : f^[(i + r) + (j - i)] start =
      ((Finset.range (j - i)).image (fun r => f^[i + r] start)).min' hSne := by
    rw [iterate_eventually_periodic f start i (j - i) hper (i + r) (by omega)]
    exact hrM
  have hge : ∀ c, i + r < c → c ≤ (i + r) + (j - i) →
      ((Finset.range (j - i)).image (fun r => f^[i + r] start)).min' hSne ≤
        f^[c] start := fun c hc _ => hge_all c (by omega)
  have hk0 : k ≠ 0 := Nat.pos_iff_ne_zero.mp hk
  have hlt : start % k < k := Nat.mod_lt _ hk
  have hfc : ∀ fuel, find_cycle f k start fuel =
      nivaschLoop f k fuel
        ((List.replicate k ([] : List Nat)).set (start % k) [start]) start := by
    intro fuel
    rw [find_cycle, if_neg hk0, List.getElem?_replicate, if_pos hlt]
  have hlen0 : ((List.replicate k ([] : List Nat)).set (start % k) [start]).length
      = k := by simp
  have hltk0 : start % k <
      ((List.replicate k ([] : List Nat)) : List (List Nat)).length := by
    simpa using hlt
  by_cases hm0 : i + r = 0
  · have hMstart :
        ((Finset.range (j - i)).image (fun r => f^[i + r] start)).min' hSne
          = start := by
      rw [← hrM, hm0]
      simp
    refine ⟨j - i, ?_⟩
    have hA := nivaschLoop_find_min f k start
      (((Finset.range (j - i)).image (fun r => f^[i + r] start)).min' hSne)
      (i + r) (j - i) hk hMp hge (j - i) (by omega) (le_refl _)
      ((List.replicate k ([] : List Nat)).set (start % k) [start]) (j - i)
      hlen0 (le_refl _)
      ⟨[start], by rw [hMstart]; exact List.getElem?_set_self hltk0,
        by rw [hMstart]; exact List.mem_cons_self _ _⟩
    have hcc : f^[(i + r) + (j - i) - (j - i)] start = start := by
      rw [show (i + r) + (j - i) - (j - i) = 0 from by omega]
      simp
    rw [hcc] at hA
    rw [hfc (j - i)]
    exact hA
  · refine ⟨(i + r) + (j - i), ?_⟩
    have hB := nivaschLoop_reach_min f k start
      (((Finset.range (j - i)).image (fun r => f^[i + r] start)).min' hSne)
      (i + r) (j - i) hk hp hrM hMp hge (i + r) (by omega) (le_refl _)
      ((List.replicate k ([] : List Nat)).set (start % k) [start])
      ((i + r) + (j - i)) hlen0 (le_refl _)
    have hcc : f^[(i + r) - (i + r)] start = start := by
      rw [Nat.sub_self]
      simp
    rw [hcc] at hB
    rw [hfc ((i + r) + (j - i))]
    exact hB

/-- Witness for C9 on the 3-cycle `x ↦ (x+1) mod 3` over the domain of size 3
with one stack. -/
theorem find_cycle_terminates_witness :
    ∃ fuel x, find_cycle (fun x => (x + 1) % 3) 1 0 fuel = Except.ok x :=
  find_cycle_terminates (fun x => (x + 1) % 3) 3 1 0 (by decide)
    (by decide) (by decide)

end CsvrHw
